import Mathlib

/-!
WalletRestore — verification of the combinatorial search engine.

Shallow embedding of `src/main.go` (two near-duplicate program variants in one
file: a plain 12-word checker and a brute-force searcher).  Pure functions of
the Go source are translated to Lean functions; Go `int64` arithmetic is
modelled as `Int` with explicit two's-complement wraparound; fallible
operations (file reads, JSON unmarshalling, key derivation) return
`Except`/`Option`.  External library calls (BIP32/BIP39 derivation, JSON,
the file system) are taken as parameters of the embedded functions, exactly
at the call boundary the Go code uses them.
-/

namespace WalletRestore

/-! ## IndexSpace: the per-iteration index → digits decoding

`generateCombinations` (src/main.go, brute-force variant) decodes the loop
index `i` into wordlist digits with

    num := i
    for j := len(indices) - 1; j >= 0; j-- {
        indices[j] = int(num) % len(wordlist)
        num /= int64(len(wordlist))
    }

`decodeIndex L k num` is that loop: the digit for the last missing position
is written first (`num % L`), then the remaining `k-1` digits are produced
from `num / L`. -/
def decodeIndex (L : Nat) : Nat → Nat → List Nat
  | 0, _ => []
  | k + 1, num => decodeIndex L k (num / L) ++ [num % L]

/-- The inverse direction (most-significant digit first), used to state that
`decodeIndex` is a bijection: `encodeIndex L [d₀, …, d_{k-1}] = Σ dⱼ·L^(k-1-j)`. -/
def encodeIndex (L : Nat) (ds : List Nat) : Nat :=
  ds.foldl (fun acc d => acc * L + d) 0

theorem decodeIndex_length (L k num : Nat) : (decodeIndex L k num).length = k := by
  induction k generalizing num with
  | zero => rfl
  | succ k ih => simp [decodeIndex, ih]

theorem decodeIndex_digit_lt (L k num : Nat) (hL : 0 < L) :
    ∀ d ∈ decodeIndex L k num, d < L := by
  induction k generalizing num with
  | zero => simp [decodeIndex]
  | succ k ih =>
    intro d hd
    simp only [decodeIndex, List.mem_append, List.mem_singleton] at hd
    rcases hd with hd | hd
    · exact ih _ d hd
    · exact hd ▸ Nat.mod_lt _ hL

theorem encodeIndex_append (L : Nat) (ds : List Nat) (d : Nat) :
    encodeIndex L (ds ++ [d]) = encodeIndex L ds * L + d := by
  simp [encodeIndex, List.foldl_append]

theorem encodeIndex_decodeIndex (L k num : Nat) (h : num < L ^ k) :
    encodeIndex L (decodeIndex L k num) = num := by
  induction k generalizing num with
  | zero =>
    have : num = 0 := Nat.lt_one_iff.mp (by simpa using h)
    simp [this, decodeIndex, encodeIndex]
  | succ k ih =>
    have hL : 0 < L := by
      rcases Nat.eq_zero_or_pos L with h0 | h0
      · subst h0; simp at h
      · exact h0
    have hdiv : num / L < L ^ k := by
      rw [Nat.div_lt_iff_lt_mul hL]
      calc num < L ^ (k + 1) := h
        _ = L ^ k * L := by ring
    rw [decodeIndex, encodeIndex_append, ih _ hdiv, Nat.div_add_mod']

theorem encodeIndex_lt (L : Nat) (ds : List Nat) (h : ∀ d ∈ ds, d < L) :
    encodeIndex L ds < L ^ ds.length := by
  induction ds using List.reverseRecOn with
  | nil => simp [encodeIndex]
  | append_singleton ds d ih =>
    have hd : d < L := h d (by simp)
    have hds : encodeIndex L ds < L ^ ds.length :=
      ih (fun x hx => h x (by simp [hx]))
    have hL : 0 < L := Nat.pos_of_ne_zero (by rintro rfl; exact Nat.not_lt_zero d hd)
    rw [encodeIndex_append, List.length_append, List.length_singleton]
    calc encodeIndex L ds * L + d
        ≤ (L ^ ds.length - 1) * L + d := by
          have := Nat.le_sub_one_of_lt hds
          exact Nat.add_le_add_right (Nat.mul_le_mul_right L this) d
      _ < (L ^ ds.length - 1) * L + L := Nat.add_lt_add_left hd _
      _ = L ^ ds.length * L - L + L := by rw [Nat.sub_mul, Nat.one_mul]
      _ = L ^ ds.length * L := Nat.sub_add_cancel (Nat.le_mul_of_pos_left L (Nat.pos_pow_of_pos _ hL))
      _ = L ^ (ds.length + 1) := by ring

theorem decodeIndex_encodeIndex (L : Nat) (ds : List Nat) (h : ∀ d ∈ ds, d < L) :
    decodeIndex L ds.length (encodeIndex L ds) = ds := by
  induction ds using List.reverseRecOn with
  | nil => simp [decodeIndex, encodeIndex]
  | append_singleton ds d ih =>
    have hd : d < L := h d (by simp)
    have hL : 0 < L := Nat.pos_of_ne_zero (by rintro rfl; exact Nat.not_lt_zero d hd)
    have hds : ∀ x ∈ ds, x < L := fun x hx => h x (by simp [hx])
    rw [List.length_append, List.length_singleton, encodeIndex_append, decodeIndex]
    have hdive : (encodeIndex L ds * L + d) / L = encodeIndex L ds := by
      rw [Nat.add_comm, Nat.add_mul_div_right _ _ hL, Nat.div_eq_of_lt hd, Nat.zero_add]
    have hmode : (encodeIndex L ds * L + d) % L = d := by
      rw [Nat.add_comm, Nat.add_mul_mod_self_right, Nat.mod_eq_of_lt hd]
    rw [hdive, hmode, ih hds]

theorem decodeIndex_getLast (L k num : Nat) :
    (decodeIndex L (k + 1) num).getLast? = some (num % L) := by
  simp [decodeIndex]

theorem decodeIndex_head (L : Nat) (hL : 0 < L) :
    ∀ k num, 1 ≤ k → num < L ^ k →
      (decodeIndex L k num).head? = some (num / L ^ (k - 1)) := by
  intro k
  induction k with
  | zero => intro num hk; omega
  | succ k ih =>
    intro num _ hnum
    cases Nat.eq_zero_or_pos k with
    | inl h0 =>
      subst h0
      have : num % L = num := Nat.mod_eq_of_lt (by simpa using hnum)
      simp [decodeIndex, this]
    | inr hk1 =>
      have hdiv : num / L < L ^ k := by
        rw [Nat.div_lt_iff_lt_mul hL]
        calc num < L ^ (k + 1) := hnum
          _ = L ^ k * L := by ring
      have hne : decodeIndex L k (num / L) ≠ [] := by
        intro hc
        have := decodeIndex_length L k (num / L)
        rw [hc] at this
        simp at this
        omega
      rw [decodeIndex, List.head?_append_of_ne_nil _ hne, ih (num / L) hk1 hdiv]
      congr 1
      rw [Nat.div_div_eq_div_mul]
      congr 1
      rcases Nat.exists_eq_add_of_le hk1 with ⟨m, hm⟩
      subst hm
      simp [pow_succ, Nat.add_comm]
      ring

/-- C1. For every `k ≥ 1` with wordlist size `L = 2048`, the per-iteration
index decoding of `generateCombinations` is a bijection between `[0, 2048^k)`
and `[0, 2048)^k`: no two indices yield the same digit tuple, every digit
tuple is reached, the digit for the last missing position is `i % 2048`
(varies fastest) and the digit for the first missing position is
`i / 2048^(k-1)` (varies slowest). -/
theorem decodeIndex_bijection_2048 (k : Nat) (hk : 1 ≤ k) :
    (∀ i1 i2, i1 < 2048 ^ k → i2 < 2048 ^ k →
        decodeIndex 2048 k i1 = decodeIndex 2048 k i2 → i1 = i2) ∧
    (∀ ds : List Nat, ds.length = k → (∀ d ∈ ds, d < 2048) →
        ∃ i, i < 2048 ^ k ∧ decodeIndex 2048 k i = ds) ∧
    (∀ i, i < 2048 ^ k →
        (decodeIndex 2048 k i).getLast? = some (i % 2048) ∧
        (decodeIndex 2048 k i).head? = some (i / 2048 ^ (k - 1))) := by
  refine ⟨?_, ?_, ?_⟩
  · intro i1 i2 h1 h2 heq
    have e1 := encodeIndex_decodeIndex 2048 k i1 h1
    have e2 := encodeIndex_decodeIndex 2048 k i2 h2
    rw [← e1, ← e2, heq]
  · intro ds hlen hds
    refine ⟨encodeIndex 2048 ds, ?_, ?_⟩
    · have := encodeIndex_lt 2048 ds hds
      rwa [hlen] at this
    · have := decodeIndex_encodeIndex 2048 ds hds
      rwa [hlen] at this
  · intro i hi
    constructor
    · rcases Nat.exists_eq_add_of_le hk with ⟨m, hm⟩
      subst hm
      rw [Nat.add_comm]
      simpa using decodeIndex_getLast 2048 m i
    · exact decodeIndex_head 2048 (by norm_num) k i hk hi

/-- Witness for C1 at `k = 2`, `i = 2049`: last digit `2049 % 2048 = 1`,
first digit `2049 / 2048 = 1`. -/
theorem decodeIndex_bijection_2048_witness :
    (decodeIndex 2048 2 2049).getLast? = some 1 ∧
    (decodeIndex 2048 2 2049).head? = some 1 := by
  have h := (decodeIndex_bijection_2048 2 (by decide)).2.2 2049 (by norm_num)
  simpa using h

/-! ## `pow`: the total-combination count under Go `int64` arithmetic -/

/-- Two's-complement wraparound of a Go `int64` value, as an `Int`:
reduce mod `2^64` into `[0, 2^64)` and reinterpret the high half as negative. -/
def wrap64 (z : Int) : Int :=
  let m := z % (2 : Int) ^ 64
  if m < (2 : Int) ^ 63 then m else m - (2 : Int) ^ 64

/-- `pow` from src/main.go:

    result := int64(1)
    for i := 0; i < y; i++ { result *= int64(x) }

Each `*=` is an `int64` multiplication, hence wraps.  (For a negative `y` the
Go loop body never runs and the result is 1; the claims only use `y ∈ [0,12]`,
so `y : Nat` here.) -/
def pow (x : Int) (y : Nat) : Int :=
  (List.range y).foldl (fun result _ => wrap64 (result * x)) 1

/-- C5 counterexample. At `k = 6` missing words the computed total
combination count is `pow 2048 6 = 0` — `2048^6 = 2^66` wraps to zero in
`int64` — so it neither equals `2048^6` nor is it ≥ 1. -/
theorem pow_2048_6_wraps_to_zero :
    pow 2048 6 = 0 ∧ ¬(pow 2048 6 = (2048 : Int) ^ 6 ∧ 1 ≤ pow 2048 6) := by
  decide

/-- C5 (amended). For `k ∈ [0, 5]` the computed total combination count is
exactly `2048^k` (and hence ≥ 1); for `k ∈ [6, 12]` the `int64` computation
wraps around to `0`, since `2048^k = 2^(11k)` with `11k ≥ 64`. -/
theorem pow_2048_exact_iff_small (k : Nat) (hk : k < 13) :
    pow 2048 k = if k ≤ 5 then (2048 : Int) ^ k else 0 := by
  interval_cases k <;> decide

/-- Witness for C5 (amended) at `k = 3`. -/
theorem pow_2048_exact_iff_small_witness :
    pow 2048 3 = if 3 ≤ 5 then (2048 : Int) ^ 3 else 0 :=
  pow_2048_exact_iff_small 3 (by decide)

/-! ## Progress, checkpoint load, and startup initialisation -/

/-- The `Progress` record persisted to `progress.json`. -/
structure Progress where
  LastIndex : Int
  TestedCombos : Int
  KnownWords : List String
  KnownPositions : List Nat
deriving DecidableEq

/-- The compile-time constant `AllPositionsAreKnown = true` of the
brute-force variant. -/
def AllPositionsAreKnown : Bool := true

/-- The fresh `Progress` built in `main` when no checkpoint is usable:
`LastIndex = -1`, `TestedCombos = 0`, the current known words, and one
position per known word — position `i` for word `i` when
`AllPositionsAreKnown`, otherwise a position read from stdin (modelled by
`askPos`). -/
def freshProgress (knownWords : List String) (askPos : Nat → Nat) : Progress :=
  { LastIndex := -1
    TestedCombos := 0
    KnownWords := knownWords
    KnownPositions := (List.range knownWords.length).map
      (fun i => if AllPositionsAreKnown then i else askPos i) }

/-- Startup initialisation in `main`:

    progress := loadProgress()
    if progress == nil { progress = &Progress{ LastIndex: -1, ... } }

A successfully loaded checkpoint is used as-is; a fresh `Progress` is built
only when loading returned nil.  (There is no comparison of the loaded
checkpoint's `KnownWords`/`KnownPositions` against the current input.) -/
def initProgress (loaded : Option Progress) (knownWords : List String)
    (askPos : Nat → Nat) : Progress :=
  match loaded with
  | some p => p
  | none => freshProgress knownWords askPos

/-- A checkpoint whose known-word configuration differs from the current run. -/
def staleCheckpoint : Progress :=
  { LastIndex := 5, TestedCombos := 100, KnownWords := ["apple"], KnownPositions := [0] }

/-- C3 counterexample. A loaded checkpoint whose `KnownWords` do not match
the current invocation's known words (`["zebra"]` vs stored `["apple"]`) is
resumed unchanged — `main` performs no compatibility check — contradicting the
claim that such a checkpoint is discarded in favour of a fresh `Progress`
with `LastIndex = -1`. -/
theorem initProgress_ignores_config_mismatch :
    initProgress (some staleCheckpoint) ["zebra"] (fun _ => 0) = staleCheckpoint ∧
    staleCheckpoint.KnownWords ≠ ["zebra"] ∧
    staleCheckpoint.LastIndex ≠ -1 :=
  ⟨rfl, by decide, by decide⟩

/-- C3 (amended). A loaded checkpoint is resumed from if and only if
loading succeeded: any successfully parsed checkpoint is used as-is, with no
validation of its known-word configuration against the current run, and a
fresh `Progress` (`LastIndex = -1`, `TestedCombos = 0`, current known words)
is used exactly when loading returned none. -/
theorem initProgress_resumes_iff_loaded (p : Progress) (kw : List String)
    (askPos : Nat → Nat) :
    initProgress (some p) kw askPos = p ∧
    initProgress none kw askPos = freshProgress kw askPos ∧
    (freshProgress kw askPos).LastIndex = -1 ∧
    (freshProgress kw askPos).TestedCombos = 0 ∧
    (freshProgress kw askPos).KnownWords = kw :=
  ⟨rfl, rfl, rfl, rfl, rfl⟩

/-- The outcome of `os.ReadFile("progress.json")`: a missing file and an
unreadable file both surface as a Go error; otherwise the raw content. -/
inductive ReadResult
  | missing
  | unreadable
  | content (data : String)

/-- `loadProgress` from src/main.go: a `ReadFile` error returns nil, a
`json.Unmarshal` error returns nil, otherwise the parsed `Progress`.  The
file outcome and the JSON decoder are parameters at exactly the call
boundary the Go code uses them. -/
def loadProgress (readFile : ReadResult)
    (unmarshal : String → Option Progress) : Option Progress :=
  match readFile with
  | .missing => none
  | .unreadable => none
  | .content data =>
    match unmarshal data with
    | none => none
    | some p => some p

/-- C7. Every checkpoint-load failure — missing file, unreadable file, or
content the JSON decoder rejects — yields `none`, uniformly, and never a
fatal error (`loadProgress` is total and only ever returns an `Option`). -/
theorem loadProgress_failures_yield_none (unmarshal : String → Option Progress)
    (data : String) (h : unmarshal data = none) :
    loadProgress .missing unmarshal = none ∧
    loadProgress .unreadable unmarshal = none ∧
    loadProgress (.content data) unmarshal = none := by
  refine ⟨rfl, rfl, ?_⟩
  simp [loadProgress, h]

/-- Witness for C7: a decoder that rejects the content "not json". -/
theorem loadProgress_failures_yield_none_witness :
    loadProgress .missing (fun _ => none) = none ∧
    loadProgress .unreadable (fun _ => none) = none ∧
    loadProgress (.content "not json") (fun _ => none) = none :=
  loadProgress_failures_yield_none (fun _ => none) "not json" rfl

/-! ## `main` dispatch on the known-word count -/

inductive MainMode
  | singleCheck
  | bruteForce
deriving DecidableEq

/-- The brute-force variant's `main` dispatch: exactly 12 known words runs a
single `checkWallet` and returns; ANY other word count — including more than
12 — prints "Entering brute-force mode!" and proceeds to the brute-force
path.  There is no word-count validation. -/
def mainDispatch (knownWords : List String) : MainMode :=
  if knownWords.length == 12 then .singleCheck else .bruteForce

/-- One Go slice write `ws[p] = w`: out-of-range is a runtime panic,
modelled as `none`. -/
def setChecked (ws : List String) (p : Nat) (w : String) : Option (List String) :=
  if p < ws.length then some (ws.set p w) else none

/-- The known-word placement at the top of `generateCombinations`:

    words := make([]string, 12)
    for i, word := range progress.KnownWords {
        words[progress.KnownPositions[i]] = word
    }

`none` models the index-out-of-range panic. -/
def fillKnown (knownWords : List String) (knownPositions : List Nat) :
    Option (List String) :=
  (knownWords.zip knownPositions).foldlM
    (fun ws pw => setChecked ws pw.2 pw.1) (List.replicate 12 "")

def thirteenWords : List String := List.replicate 13 "abandon"

/-- C4 (code bug). With 13 known words the program does not fail fast:
`main` dispatches to brute-force mode (only a count of exactly 12 avoids it),
the fresh `Progress` assigns them positions `0..12`, and the known-word
placement then panics writing position 12 of the 12-slot phrase buffer. -/
theorem mainDispatch_thirteen_words_enters_bruteforce :
    mainDispatch thirteenWords = MainMode.bruteForce ∧
    (freshProgress thirteenWords (fun _ => 0)).KnownPositions = List.range 13 ∧
    fillKnown thirteenWords (List.range 13) = none :=
  ⟨rfl, by decide, by decide⟩

/-! ## Generic lemmas about sequences of slice writes

Both loops that write words into the 12-slot phrase buffer — the known-word
placement and the per-iteration missing-word fill — are folds of Go's
`ws[p] = w` over a list of (word, position) assignments.  `placeAll` is that
fold; the lemmas below describe which slots it writes and that its result
depends only on the slots the assignment list does not touch. -/
def placeAll (assigns : List (String × Nat)) (ws : List String) : List String :=
  assigns.foldl (fun ws aw => ws.set aw.2 aw.1) ws

theorem placeAll_cons (a : String × Nat) (rest : List (String × Nat)) (ws : List String) :
    placeAll (a :: rest) ws = placeAll rest (ws.set a.2 a.1) := rfl

theorem placeAll_length (assigns : List (String × Nat)) (ws : List String) :
    (placeAll assigns ws).length = ws.length := by
  induction assigns generalizing ws with
  | nil => rfl
  | cons a rest ih => rw [placeAll_cons, ih, List.length_set]

theorem getD_set_ne (ws : List String) (q p : Nat) (w d : String) (h : q ≠ p) :
    (ws.set q w).getD p d = ws.getD p d := by
  simp [List.getD_eq_getElem?_getD, List.getElem?_set_ne h]

theorem getD_set_self (ws : List String) (p : Nat) (w d : String) (h : p < ws.length) :
    (ws.set p w).getD p d = w := by
  simp [List.getD_eq_getElem?_getD, List.getElem?_set_self, h]

theorem placeAll_untouched (assigns : List (String × Nat)) (ws : List String)
    (p : Nat) (d : String) (h : p ∉ assigns.map Prod.snd) :
    (placeAll assigns ws).getD p d = ws.getD p d := by
  induction assigns generalizing ws with
  | nil => rfl
  | cons a rest ih =>
    simp only [List.map_cons, List.mem_cons] at h
    push_neg at h
    rw [placeAll_cons, ih _ h.2, getD_set_ne _ _ _ _ _ h.1.symm]

theorem placeAll_getD (assigns : List (String × Nat)) (ws : List String) (j : Nat)
    (hnd : (assigns.map Prod.snd).Nodup) (hj : j < assigns.length)
    (hpos : (assigns.getD j ("", 0)).2 < ws.length) :
    (placeAll assigns ws).getD (assigns.getD j ("", 0)).2 "" = (assigns.getD j ("", 0)).1 := by
  induction assigns generalizing ws j with
  | nil => simp at hj
  | cons a rest ih =>
    simp only [List.map_cons, List.nodup_cons] at hnd
    cases j with
    | zero =>
      simp only [List.getD_cons_zero] at hpos ⊢
      rw [placeAll_cons, placeAll_untouched _ _ _ _ hnd.1, getD_set_self _ _ _ _ hpos]
    | succ j =>
      simp only [List.getD_cons_succ] at hpos ⊢
      rw [placeAll_cons]
      exact ih _ _ hnd.2 (by simpa using hj) (by simpa using hpos)

theorem placeAll_congr (assigns : List (String × Nat)) (ws ws' : List String)
    (hlen : ws.length = ws'.length)
    (hagree : ∀ p, p ∉ assigns.map Prod.snd → ws.getD p "" = ws'.getD p "") :
    placeAll assigns ws = placeAll assigns ws' := by
  induction assigns generalizing ws ws' with
  | nil =>
    apply List.ext_getElem hlen
    intro i h1 h2
    have := hagree i (by simp)
    rwa [List.getD_eq_getElem, List.getD_eq_getElem] at this
  | cons a rest ih =>
    rw [placeAll_cons, placeAll_cons]
    apply ih
    · simp [List.length_set, hlen]
    · intro p hp
      by_cases hpa : p = a.2
      · rw [← hpa]
        by_cases hlt : p < ws.length
        · rw [getD_set_self _ _ _ _ hlt, getD_set_self _ _ _ _ (hlen ▸ hlt)]
        · have hge : ws.length ≤ p := Nat.le_of_not_lt hlt
          rw [List.getD_eq_default _ _ (by simpa [List.length_set] using hge),
            List.getD_eq_default _ _ (by simp only [List.length_set]; omega)]
      · have hne : a.2 ≠ p := fun h => hpa h.symm
        rw [getD_set_ne _ _ _ _ _ hne, getD_set_ne _ _ _ _ _ hne]
        refine hagree p ?_
        simp only [List.map_cons, List.mem_cons]
        push_neg
        exact ⟨hpa, hp⟩

/-! ## The combination generator -/

/-- `missingPositions` computed in `generateCombinations`: the positions of
the 12-slot buffer still empty after the known words are placed. -/
def missingPositionsOf (filled : List String) : List Nat :=
  (List.range 12).filter (fun i => filled.getD i "" == "")

/-- The per-iteration fill

    for j, pos := range missingPositions { words[pos] = wordlist[indices[j]] }

(`indices[j]` is always `< len(wordlist)` because it is a remainder mod
`len(wordlist)`, so the `getD` never pads). -/
def fillMissing (wordlist : List String) (mp : List Nat) (digits : List Nat)
    (ws : List String) : List String :=
  (digits.zip mp).foldl (fun ws dp => ws.set dp.2 (wordlist.getD dp.1 "")) ws

/-- One generator iteration on the shared buffer: decode the loop index into
wordlist digits and write the corresponding words into the missing
positions. -/
def genStep (wordlist : List String) (mp : List Nat) (ws : List String) (i : Nat) :
    List String :=
  fillMissing wordlist mp (decodeIndex wordlist.length mp.length i) ws

/-- The generator loop of `generateCombinations`: starting at index `i` with
`n` indices left before the `i < pow(len(wordlist), len(missingPositions))`
bound, poll the cancellation signal, fill the shared buffer, and emit
`(index, copy of the buffer)` into the jobs channel; the mutated buffer is
threaded into the next iteration exactly as the Go loop reuses `words`. -/
def genRun (wordlist : List String) (mp : List Nat) (cancelled : Nat → Bool) :
    List String → Nat → Nat → List (Nat × List String)
  | _, _, 0 => []
  | ws, i, n + 1 =>
    if cancelled i then []
    else
      let ws2 := genStep wordlist mp ws i
      (i, ws2) :: genRun wordlist mp cancelled ws2 (i + 1) n

theorem fillMissing_eq_placeAll (wordlist : List String) (mp digits : List Nat)
    (ws : List String) :
    fillMissing wordlist mp digits ws
      = placeAll ((digits.zip mp).map (fun dp => (wordlist.getD dp.1 "", dp.2))) ws := by
  rw [placeAll, List.foldl_map]
  rfl

theorem snd_not_mem_zip_map (wordlist : List String) (digits mp : List Nat) (p : Nat)
    (hp : p ∉ mp) :
    p ∉ ((digits.zip mp).map (fun dp => (wordlist.getD dp.1 "", dp.2))).map Prod.snd := by
  intro hmem
  simp only [List.map_map, List.mem_map] at hmem
  obtain ⟨⟨d, q⟩, hdp, heq⟩ := hmem
  simp only [Function.comp_apply] at heq
  exact hp (heq ▸ (List.of_mem_zip hdp).2)

theorem fillMissing_length (wordlist : List String) (mp digits : List Nat)
    (ws : List String) :
    (fillMissing wordlist mp digits ws).length = ws.length := by
  rw [fillMissing_eq_placeAll]
  exact placeAll_length _ _

theorem fillMissing_untouched (wordlist : List String) (mp digits : List Nat)
    (ws : List String) (p : Nat) (hp : p ∉ mp) :
    (fillMissing wordlist mp digits ws).getD p "" = ws.getD p "" := by
  rw [fillMissing_eq_placeAll]
  exact placeAll_untouched _ _ _ _ (snd_not_mem_zip_map wordlist digits mp p hp)

theorem snd_map_zip_map (wordlist : List String) (digits mp : List Nat)
    (h : mp.length ≤ digits.length) :
    ((digits.zip mp).map (fun dp => (wordlist.getD dp.1 "", dp.2))).map Prod.snd = mp := by
  induction mp generalizing digits with
  | nil => simp
  | cons q rest ih =>
    cases digits with
    | nil => simp at h
    | cons d ds =>
      simp only [List.zip_cons_cons, List.map_cons, List.length_cons] at h ⊢
      exact congrArg (q :: ·) (ih ds (Nat.le_of_succ_le_succ h))

theorem fillMissing_congr (wordlist : List String) (mp digits : List Nat)
    (ws ws' : List String) (hdlen : mp.length ≤ digits.length)
    (hlen : ws.length = ws'.length)
    (hagree : ∀ p, p ∉ mp → ws.getD p "" = ws'.getD p "") :
    fillMissing wordlist mp digits ws = fillMissing wordlist mp digits ws' := by
  rw [fillMissing_eq_placeAll, fillMissing_eq_placeAll]
  refine placeAll_congr _ _ _ hlen ?_
  rw [snd_map_zip_map wordlist digits mp hdlen]
  exact hagree

theorem genStep_congr (wordlist : List String) (mp : List Nat) (ws base : List String)
    (i : Nat) (hlen : ws.length = base.length)
    (hagree : ∀ p, p ∉ mp → ws.getD p "" = base.getD p "") :
    genStep wordlist mp ws i = genStep wordlist mp base i :=
  fillMissing_congr wordlist mp _ ws base (decodeIndex_length _ _ _).ge hlen hagree

/-- With the cancellation signal never set, the generator from index `i` with
`n` indices left emits exactly the pairs `(j, genStep … base j)` for
`j = i, i+1, …, i+n-1`: each emitted candidate is a pure function of its
index alone — the threaded buffer mutation is invisible because every missing
position is overwritten each iteration. -/
theorem genRun_eq_pure (wordlist : List String) (mp : List Nat) (base : List String)
    (cancelled : Nat → Bool) (hc : ∀ i, cancelled i = false) :
    ∀ (n i : Nat) (ws : List String), ws.length = base.length →
      (∀ p, p ∉ mp → ws.getD p "" = base.getD p "") →
      genRun wordlist mp cancelled ws i n
        = (List.range' i n).map (fun j => (j, genStep wordlist mp base j)) := by
  intro n
  induction n with
  | zero => intro i ws _ _; rfl
  | succ n ih =>
    intro i ws hlen hagree
    have hstep : genStep wordlist mp ws i = genStep wordlist mp base i :=
      genStep_congr wordlist mp ws base i hlen hagree
    have htail : genRun wordlist mp cancelled (genStep wordlist mp base i) (i + 1) n
        = (List.range' (i + 1) n).map (fun j => (j, genStep wordlist mp base j)) := by
      refine ih (i + 1) _ ?_ ?_
      · rw [genStep, fillMissing_length]
      · intro p hp
        rw [genStep, fillMissing_untouched _ _ _ _ _ hp]
    simp only [genRun, hc i, if_false, Bool.false_eq_true, List.range'_succ, List.map_cons,
      hstep, htail]

theorem foldlM_setChecked_eq (l : List (String × Nat)) :
    ∀ ws : List String, (∀ a ∈ l, a.2 < ws.length) →
      l.foldlM (fun ws pw => setChecked ws pw.2 pw.1) ws = some (placeAll l ws) := by
  induction l with
  | nil => intro ws _; rfl
  | cons a rest ih =>
    intro ws h
    have hsc : setChecked ws a.2 a.1 = some (ws.set a.2 a.1) := by
      rw [setChecked, if_pos (h a (by simp))]
    have hrest : ∀ b ∈ rest, b.2 < (ws.set a.2 a.1).length := by
      intro b hb
      rw [List.length_set]
      exact h b (by simp [hb])
    calc (a :: rest).foldlM (fun ws pw => setChecked ws pw.2 pw.1) ws
        = setChecked ws a.2 a.1 >>= fun ws' =>
            rest.foldlM (fun ws pw => setChecked ws pw.2 pw.1) ws' := by
          rw [List.foldlM_cons]
      _ = rest.foldlM (fun ws pw => setChecked ws pw.2 pw.1) (ws.set a.2 a.1) := by
          rw [hsc]; rfl
      _ = some (placeAll rest (ws.set a.2 a.1)) := ih _ hrest
      _ = some (placeAll (a :: rest) ws) := by rw [placeAll_cons]

/-- When every known position is in range, the known-word placement succeeds
and is the plain fold of slice writes. -/
theorem fillKnown_eq_some (kw : List String) (kp : List Nat)
    (hkp12 : ∀ p ∈ kp, p < 12) :
    fillKnown kw kp = some (placeAll (kw.zip kp) (List.replicate 12 "")) := by
  rw [fillKnown]
  refine foldlM_setChecked_eq _ _ ?_
  intro a ha
  rw [List.length_replicate]
  exact hkp12 a.2 (List.of_mem_zip ha).2

theorem getD_replicate_empty (p n : Nat) : (List.replicate n "").getD p "" = "" := by
  by_cases h : p < n
  · rw [List.getD_eq_getElem _ _ (by simpa using h), List.getElem_replicate]
  · rw [List.getD_eq_default _ _ (by simpa using Nat.le_of_not_lt h)]

/-- The known-word buffer at a position no known word was written to is still
empty. -/
theorem fillKnown_untouched (kw : List String) (kp : List Nat) (base : List String)
    (hkp12 : ∀ p ∈ kp, p < 12) (hbase : fillKnown kw kp = some base)
    (hlen : kw.length = kp.length) (p : Nat) (hp : p ∉ kp) :
    base.getD p "" = "" := by
  rw [fillKnown_eq_some kw kp hkp12] at hbase
  obtain rfl : placeAll (kw.zip kp) (List.replicate 12 "") = base := by
    injection hbase
  rw [placeAll_untouched, getD_replicate_empty]
  rw [List.map_snd_zip _ _ hlen.ge]
  exact hp

theorem fillKnown_length (kw : List String) (kp : List Nat) (base : List String)
    (hkp12 : ∀ p ∈ kp, p < 12) (hbase : fillKnown kw kp = some base) :
    base.length = 12 := by
  rw [fillKnown_eq_some kw kp hkp12] at hbase
  obtain rfl : placeAll (kw.zip kp) (List.replicate 12 "") = base := by
    injection hbase
  rw [placeAll_length, List.length_replicate]

theorem zip_getD {α β : Type} (l1 : List α) (l2 : List β) (j : Nat) (d1 : α) (d2 : β)
    (h1 : j < l1.length) (h2 : j < l2.length) :
    (l1.zip l2).getD j (d1, d2) = (l1.getD j d1, l2.getD j d2) := by
  have hz : j < (l1.zip l2).length := by
    rw [List.length_zip]
    exact lt_min h1 h2
  rw [List.getD_eq_getElem _ _ hz, List.getD_eq_getElem _ _ h1, List.getD_eq_getElem _ _ h2,
    List.getElem_zip]

/-- The known-word buffer holds `kw[idx]` at position `kp[idx]`. -/
theorem fillKnown_getD (kw : List String) (kp : List Nat) (base : List String)
    (hkp12 : ∀ p ∈ kp, p < 12) (hbase : fillKnown kw kp = some base)
    (hlen : kw.length = kp.length) (hnd : kp.Nodup) (idx : Nat) (hidx : idx < kw.length) :
    base.getD (kp.getD idx 0) "" = kw.getD idx "" := by
  rw [fillKnown_eq_some kw kp hkp12] at hbase
  obtain rfl : placeAll (kw.zip kp) (List.replicate 12 "") = base := by
    injection hbase
  have hidx2 : idx < kp.length := hlen ▸ hidx
  have hzlen : idx < (kw.zip kp).length := by
    rw [List.length_zip]
    exact lt_min hidx hidx2
  have hget : (kw.zip kp).getD idx ("", 0) = (kw.getD idx "", kp.getD idx 0) :=
    zip_getD kw kp idx "" 0 hidx hidx2
  have hout := placeAll_getD (kw.zip kp) (List.replicate 12 "") idx
    (by rw [List.map_snd_zip _ _ hlen.ge]; exact hnd) hzlen
    (by
      rw [hget, List.length_replicate]
      refine hkp12 _ ?_
      rw [List.getD_eq_getElem _ _ hidx2]
      exact List.getElem_mem _)
  rwa [hget] at hout

theorem mem_missingPositionsOf (filled : List String) (p : Nat) :
    p ∈ missingPositionsOf filled ↔ p < 12 ∧ filled.getD p "" = "" := by
  simp [missingPositionsOf, List.mem_filter, List.mem_range]

theorem missingPositionsOf_nodup (filled : List String) :
    (missingPositionsOf filled).Nodup :=
  (List.nodup_range 12).filter _

theorem getD_map_zip (wordlist : List String) (digits mp : List Nat) (j : Nat)
    (hdl : digits.length = mp.length) (hj : j < mp.length) :
    ((digits.zip mp).map (fun dp => (wordlist.getD dp.1 "", dp.2))).getD j ("", 0)
      = (wordlist.getD (digits.getD j 0) "", mp.getD j 0) := by
  have hz : j < (digits.zip mp).length := by
    rw [List.length_zip, hdl]
    exact lt_min hj hj
  have hm : j < ((digits.zip mp).map (fun dp => (wordlist.getD dp.1 "", dp.2))).length := by
    rwa [List.length_map]
  have hjd2 : j < digits.length := hdl ▸ hj
  rw [List.getD_eq_getElem _ _ hm, List.getElem_map, List.getElem_zip,
    List.getD_eq_getElem digits _ hjd2, List.getD_eq_getElem mp _ hj]

/-- The value of one generator candidate at one decoded missing position. -/
theorem genStep_missing_getD (wordlist : List String) (mp : List Nat)
    (base : List String) (i j : Nat)
    (hnd : mp.Nodup) (hmp12 : ∀ q ∈ mp, q < base.length) (hj : j < mp.length) :
    (genStep wordlist mp base i).getD (mp.getD j 0) ""
      = wordlist.getD
          ((decodeIndex wordlist.length mp.length i).getD j 0) "" := by
  have hdl : (decodeIndex wordlist.length mp.length i).length = mp.length :=
    decodeIndex_length _ _ _
  rw [genStep, fillMissing_eq_placeAll]
  have hsnd := snd_map_zip_map wordlist (decodeIndex wordlist.length mp.length i) mp hdl.ge
  have hzl : j < (((decodeIndex wordlist.length mp.length i).zip mp).map
      (fun dp => (wordlist.getD dp.1 "", dp.2))).length := by
    rw [List.length_map, List.length_zip, hdl]
    exact lt_min hj hj
  have hget := getD_map_zip wordlist (decodeIndex wordlist.length mp.length i) mp j hdl hj
  have hout := placeAll_getD
    (((decodeIndex wordlist.length mp.length i).zip mp).map
      (fun dp => (wordlist.getD dp.1 "", dp.2))) base j
    (by rw [hsnd]; exact hnd) hzl
    (by
      rw [hget]
      refine hmp12 _ ?_
      rw [List.getD_eq_getElem _ _ hj]
      exact List.getElem_mem _)
  rwa [hget] at hout

/-- C9. Every job the generator hands to a worker is a fully populated
ordered sequence of exactly 12 words: position `kp[idx]` holds the known word
`kw[idx]`, missing position `mp[j]` holds `wordlist[digits[j]]` for the digits
decoded from the job's index, and every position is non-empty.  Moreover the
candidate equals `genStep … base i`, a pure function of the index alone: the
emitted copy is independent of every other iteration's mutation of the shared
buffer (the observable content of Go's fresh `wordsCopy` per index). -/
theorem generator_candidate_correct
    (wordlist kw : List String) (kp : List Nat) (base : List String)
    (cancelled : Nat → Bool) (start n i idx j p : Nat) (c : List String)
    (hlen : kw.length = kp.length) (hnd : kp.Nodup) (hkp12 : ∀ q ∈ kp, q < 12)
    (hkw : ∀ w ∈ kw, w ≠ "") (hwl : ∀ w ∈ wordlist, w ≠ "")
    (hwl0 : 0 < wordlist.length)
    (hbase : fillKnown kw kp = some base)
    (hc : ∀ m, cancelled m = false)
    (hmem : (i, c) ∈ genRun wordlist (missingPositionsOf base) cancelled base start n)
    (hidx : idx < kw.length) (hj : j < (missingPositionsOf base).length) (hp : p < 12) :
    c = genStep wordlist (missingPositionsOf base) base i ∧
    c.length = 12 ∧
    c.getD (kp.getD idx 0) "" = kw.getD idx "" ∧
    c.getD ((missingPositionsOf base).getD j 0) ""
      = wordlist.getD
          ((decodeIndex wordlist.length (missingPositionsOf base).length i).getD j 0) "" ∧
    c.getD p "" ≠ "" := by
  have hbl : base.length = 12 := fillKnown_length kw kp base hkp12 hbase
  have hmpnd : (missingPositionsOf base).Nodup := missingPositionsOf_nodup base
  have hmp12 : ∀ q ∈ missingPositionsOf base, q < base.length := by
    intro q hq
    rw [hbl]
    exact ((mem_missingPositionsOf base q).mp hq).1
  rw [genRun_eq_pure wordlist (missingPositionsOf base) base cancelled hc n start base rfl
    (fun _ _ => rfl)] at hmem
  simp only [List.mem_map, Prod.mk.injEq] at hmem
  obtain ⟨i', _, rfl, rfl⟩ := hmem
  refine ⟨rfl, ?_, ?_, ?_, ?_⟩
  · rw [genStep, fillMissing_length, hbl]
  · have hidx2 : idx < kp.length := hlen ▸ hidx
    have hkpos : kp.getD idx 0 ∈ kp := by
      rw [List.getD_eq_getElem _ _ hidx2]
      exact List.getElem_mem _
    have hbk : base.getD (kp.getD idx 0) "" = kw.getD idx "" :=
      fillKnown_getD kw kp base hkp12 hbase hlen hnd idx hidx
    have hkne : base.getD (kp.getD idx 0) "" ≠ "" := by
      rw [hbk]
      refine hkw _ ?_
      rw [List.getD_eq_getElem _ _ hidx]
      exact List.getElem_mem _
    have hnotmp : kp.getD idx 0 ∉ missingPositionsOf base := by
      rw [mem_missingPositionsOf]
      exact fun h => hkne h.2
    rw [genStep, fillMissing_untouched _ _ _ _ _ hnotmp, hbk]
  · exact genStep_missing_getD wordlist (missingPositionsOf base) base i' j hmpnd hmp12 hj
  · by_cases hpm : p ∈ missingPositionsOf base
    · obtain ⟨j', hj', hjp⟩ := List.mem_iff_getElem.mp hpm
      have hjd : (missingPositionsOf base).getD j' 0 = p := by
        rw [List.getD_eq_getElem _ _ hj']
        exact hjp
      rw [← hjd, genStep_missing_getD wordlist (missingPositionsOf base) base i' j' hmpnd
        hmp12 hj']
      have hlen2 : j' < (decodeIndex wordlist.length (missingPositionsOf base).length i').length := by
        rw [decodeIndex_length]
        exact hj'
      have hdig : (decodeIndex wordlist.length (missingPositionsOf base).length i').getD j' 0
          < wordlist.length := by
        refine decodeIndex_digit_lt wordlist.length (missingPositionsOf base).length i' hwl0 _ ?_
        rw [List.getD_eq_getElem _ _ hlen2]
        exact List.getElem_mem _
      refine hwl _ ?_
      rw [List.getD_eq_getElem _ _ hdig]
      exact List.getElem_mem _
    · rw [genStep, fillMissing_untouched _ _ _ _ _ hpm]
      intro hempty
      exact hpm ((mem_missingPositionsOf base p).mpr ⟨hp, hempty⟩)

/-- The known-word buffer for one known word "known" at position 0. -/
def demoBase : List String :=
  ["known", "", "", "", "", "", "", "", "", "", "", ""]

/-- The candidate the generator emits for index 0 over the two-word wordlist
`["alpha", "beta"]` with `demoBase`: all 11 missing positions decode to
digit 0, i.e. "alpha". -/
def demoCandidate : List String :=
  ["known", "alpha", "alpha", "alpha", "alpha", "alpha", "alpha", "alpha", "alpha",
    "alpha", "alpha", "alpha"]

/-- Witness for C9: one known word at position 0, wordlist `["alpha","beta"]`,
index 0. -/
theorem generator_candidate_correct_witness :
    demoCandidate = genStep ["alpha", "beta"] (missingPositionsOf demoBase) demoBase 0 ∧
    demoCandidate.length = 12 ∧
    demoCandidate.getD (([0] : List Nat).getD 0 0) "" = (["known"] : List String).getD 0 "" ∧
    demoCandidate.getD ((missingPositionsOf demoBase).getD 0 0) ""
      = (["alpha", "beta"] : List String).getD
          ((decodeIndex (["alpha", "beta"] : List String).length
              (missingPositionsOf demoBase).length 0).getD 0 0) "" ∧
    demoCandidate.getD 3 "" ≠ "" :=
  generator_candidate_correct ["alpha", "beta"] ["known"] [0] demoBase
    (fun _ => false) 0 1 0 0 0 3 demoCandidate
    (by decide) (by decide) (by decide) (by decide) (by decide) (by decide)
    (by decide) (fun _ => rfl) (by decide) (by decide) (by decide) (by decide)

/-- C2. With no prior checkpoint (`progress.LastIndex = -1`, so
`startIndex = LastIndex + 1 = 0`) and the cancellation signal never set, the
generator emits exactly one job per index of `[0, N)` where `N` is the
computed total combination count: the projection of the emitted trace onto
indices is exactly `0, 1, …, N-1` — strictly ascending, no index skipped,
none emitted twice.  The generator takes no worker count: the jobs channel
is filled identically for any `workerCount`. -/
theorem generator_covers_index_space (wordlist : List String) (mp : List Nat)
    (cancelled : Nat → Bool) (progress : Progress) (ws : List String)
    (N workerCount : Nat)
    (hfresh : progress.LastIndex = -1) (hc : ∀ i, cancelled i = false) :
    (genRun wordlist mp cancelled ws (progress.LastIndex + 1).toNat
        (N - (progress.LastIndex + 1).toNat)).map Prod.fst = List.range N := by
  have h0 : (progress.LastIndex + 1).toNat = 0 := by rw [hfresh]; rfl
  rw [h0, Nat.sub_zero,
    genRun_eq_pure wordlist mp ws cancelled hc N 0 ws rfl (fun p _ => rfl),
    List.map_map]
  have hcomp : (Prod.fst ∘ fun j => (j, genStep wordlist mp ws j)) = id := rfl
  rw [hcomp, List.map_id, ← List.range_eq_range']

/-- Witness for C2: one known word at position 0, two-word wordlist, `N = 3`;
the emitted indices are `[0, 1, 2]`. -/
theorem generator_covers_index_space_witness :
    (genRun ["alpha", "beta"] [1] (fun _ => false) (List.replicate 12 "")
        ((freshProgress ["w"] (fun _ => 0)).LastIndex + 1).toNat
        (3 - ((freshProgress ["w"] (fun _ => 0)).LastIndex + 1).toNat)).map Prod.fst
      = List.range 3 :=
  generator_covers_index_space ["alpha", "beta"] [1] (fun _ => false)
    (freshProgress ["w"] (fun _ => 0)) (List.replicate 12 "") 3 4 rfl (fun _ => rfl)

/-! ## `checkWallet`, the worker loop, and match handling -/

/-- The external BIP32/BIP39 derivation library at exactly the boundary
`checkWallet` calls it: master-key creation from a mnemonic's seed
(`bip39.NewSeed` is total and folded into the input of
`hdkeychain.NewMaster`), one child-key derivation step, private-key
extraction, and the pure TRON address rendering.  `K` and `P` are the
library's opaque key types; each fallible call returns `Except`. -/
structure DerivationLib (K P : Type) where
  newMaster : String → Except Unit K
  derive : K → Nat → Except Unit K
  ecPrivKey : K → Except Unit P
  tronAddress : P → String

/-- The derivation path `44'/195'/0'/0/0` hardcoded in the brute-force
variant's `checkWallet` (`HardenedKeyStart + 44 = 0x8000002C`, etc.). -/
def derivationPath : List Nat := [0x8000002C, 0x800000C3, 0x80000000, 0, 0]

/-- The loop

    for _, n := range path { key, err = key.Derive(n); if err != nil { return "", false } }

with the early return represented by error propagation. -/
def deriveAlong {K P : Type} (lib : DerivationLib K P) : K → List Nat → Except Unit K
  | k, [] => .ok k
  | k, n :: rest =>
    match lib.derive k n with
    | .error e => .error e
    | .ok k2 => deriveAlong lib k2 rest

/-- The fallible part of `checkWallet`: master-key creation, the path
derivation loop, private-key extraction, then the pure address rendering.
Each Go `if err != nil { return "", false }` is an error exit here. -/
def runPipeline {K P : Type} (lib : DerivationLib K P) (mnemonic : String) :
    Except Unit String :=
  match lib.newMaster mnemonic with
  | .error e => .error e
  | .ok master =>
    match deriveAlong lib master derivationPath with
    | .error e => .error e
    | .ok key =>
      match lib.ecPrivKey key with
      | .error e => .error e
      | .ok priv => .ok (lib.tronAddress priv)

/-- `checkWallet` from the brute-force variant: every internal failure
becomes `("", false)`; on success the derived address is returned together
with the comparison against the target. -/
def checkWallet {K P : Type} (lib : DerivationLib K P)
    (mnemonic targetAddr : String) : String × Bool :=
  match runPipeline lib mnemonic with
  | .error _ => ("", false)
  | .ok address => (address, address == targetAddr)

inductive WorkerAction
  | continueLoop
  | exitProcess
deriving DecidableEq

/-- One iteration of the worker loop body on a received job: on a match the
worker prints the result and calls `os.Exit(0)`; otherwise it atomically
increments `progress.TestedCombos` and continues with the next job. -/
def workerStep (result : String × Bool) (tested : Int) : WorkerAction × Int :=
  if result.2 then (.exitProcess, tested) else (.continueLoop, tested + 1)

/-- C6. Whenever the derivation pipeline fails internally on a candidate —
master-key creation, any child-key derivation step, or private-key extraction
returns an error — `checkWallet` returns `ok = false` with an empty address
instead of propagating a fatal error, and the worker treats the candidate as
a non-match: it increments the tested counter and continues the loop. -/
theorem checkWallet_failure_nonfatal {K P : Type} (lib : DerivationLib K P)
    (mnemonic targetAddr : String) (tested : Int)
    (hfail : lib.newMaster mnemonic = .error ()
      ∨ (∃ master, lib.newMaster mnemonic = .ok master
          ∧ deriveAlong lib master derivationPath = .error ())
      ∨ (∃ master key, lib.newMaster mnemonic = .ok master
          ∧ deriveAlong lib master derivationPath = .ok key
          ∧ lib.ecPrivKey key = .error ())) :
    checkWallet lib mnemonic targetAddr = ("", false) ∧
    workerStep (checkWallet lib mnemonic targetAddr) tested
      = (WorkerAction.continueLoop, tested + 1) := by
  have herr : runPipeline lib mnemonic = .error () := by
    rcases hfail with h1 | ⟨master, h1, h2⟩ | ⟨master, key, h1, h2, h3⟩
    · simp only [runPipeline, h1]
    · simp only [runPipeline, h1, h2]
    · simp only [runPipeline, h1, h2, h3]
  have hcw : checkWallet lib mnemonic targetAddr = ("", false) := by
    rw [checkWallet, herr]
  exact ⟨hcw, by rw [hcw]; rfl⟩

/-- A derivation library whose master-key creation always fails. -/
def failingLib : DerivationLib Unit Unit :=
  { newMaster := fun _ => .error ()
    derive := fun _ _ => .ok ()
    ecPrivKey := fun _ => .ok ()
    tronAddress := fun _ => "T" }

/-- Witness for C6: with a failing master-key step, `checkWallet` returns
`("", false)` and the worker continues with `tested = 7 + 1`. -/
theorem checkWallet_failure_nonfatal_witness :
    checkWallet failingLib "abandon ability able" "TTarget" = ("", false) ∧
    workerStep (checkWallet failingLib "abandon ability able" "TTarget") 7
      = (WorkerAction.continueLoop, 8) :=
  checkWallet_failure_nonfatal failingLib "abandon ability able" "TTarget" 7 (Or.inl rfl)

/-! ## Process-level match handling

The workers share one jobs channel; whichever worker receives a job runs
`checkWallet` on it and, on a match, prints the candidate and calls
`os.Exit(0)`, which terminates every goroutine at once.  The interleaving is
modelled by a step function over the process state: each step is one worker
taking the next job from the channel; after `os.Exit` the state is absorbing,
so no worker issues any further derivation call. -/
structure ProcState where
  jobs : List (List String)
  tested : Int
  report : Option (String × List String)
deriving DecidableEq

/-- One worker taking one job from the shared channel and running the loop
body on it (`src/main.go:276-287`).  A state with a report is the state after
`os.Exit(0)`: nothing further happens in it. -/
def procStep (check : List String → String × Bool) (s : ProcState) : ProcState :=
  match s.report with
  | some _ => s
  | none =>
    match s.jobs with
    | [] => s
    | c :: rest =>
      if (check c).2 then { jobs := rest, tested := s.tested, report := some ((check c).1, c) }
      else { jobs := rest, tested := s.tested + 1, report := none }

/-- `n` interleaved worker steps. -/
def procRun (check : List String → String × Bool) (s : ProcState) : Nat → ProcState
  | 0 => s
  | n + 1 => procRun check (procStep check s) n

/-- The first job in channel order whose check matches — the candidate the
process must report. -/
def firstMatch (check : List String → String × Bool) :
    List (List String) → Option (List String)
  | [] => none
  | c :: rest => if (check c).2 then some c else firstMatch check rest

theorem procStep_absorbing (check : List String → String × Bool) (s : ProcState)
    (h : s.report.isSome = true) : procStep check s = s := by
  rw [procStep]
  match hr : s.report with
  | some r => rfl
  | none => rw [hr] at h; simp at h

theorem procRun_absorbing (check : List String → String × Bool) (s : ProcState)
    (h : s.report.isSome = true) : ∀ m, procRun check s m = s := by
  intro m
  induction m with
  | zero => rfl
  | succ m ih => rw [procRun, procStep_absorbing check s h]; exact ih

/-- The invariant, split on the report: before a match is observed, the
first match of the remaining jobs is the first match of the original channel
content; once a report exists, it is exactly that first match together with
its derived address. -/
def procInvAux (check : List String → String × Bool) (jobs0 jobs : List (List String)) :
    Option (String × List String) → Prop
  | none => firstMatch check jobs = firstMatch check jobs0
  | some (address, c) => firstMatch check jobs0 = some c ∧ check c = (address, true)

/-- The process invariant preserved by every worker step. -/
def procInv (check : List String → String × Bool) (jobs0 : List (List String))
    (s : ProcState) : Prop :=
  procInvAux check jobs0 s.jobs s.report

theorem procStep_inv (check : List String → String × Bool) (jobs0 : List (List String))
    (s : ProcState) (h : procInv check jobs0 s) : procInv check jobs0 (procStep check s) := by
  match hr : s.report with
  | some r =>
    rwa [procStep_absorbing check s (by rw [hr]; rfl)]
  | none =>
    rw [procInv, hr] at h
    simp only [procInvAux] at h
    match hj : s.jobs with
    | [] =>
      rw [procInv]
      simp only [procStep, hr, hj]
      rw [procInvAux]
      rwa [hj] at h
    | c :: rest =>
      rw [hj, firstMatch] at h
      by_cases hc : (check c).2
      · rw [procInv]
        simp only [procStep, hr, hj, if_pos hc]
        rw [procInvAux]
        constructor
        · rw [← h, if_pos hc]
        · have heta : check c = ((check c).1, (check c).2) := rfl
          rw [heta, hc]
      · rw [procInv]
        simp only [procStep, hr, hj, if_neg hc]
        rw [procInvAux]
        rw [← h, if_neg hc]

theorem procRun_inv (check : List String → String × Bool) (jobs0 : List (List String))
    (s : ProcState) (h : procInv check jobs0 s) :
    ∀ n, procInv check jobs0 (procRun check s n) := by
  intro n
  induction n generalizing s with
  | zero => exact h
  | succ n ih => exact ih _ (procStep_inv check jobs0 s h)

theorem firstMatch_isSome (check : List String → String × Bool)
    (jobs : List (List String)) (hm : ∃ c ∈ jobs, (check c).2 = true) :
    ∃ c, firstMatch check jobs = some c := by
  induction jobs with
  | nil => simp at hm
  | cons c rest ih =>
    by_cases hc : (check c).2
    · exact ⟨c, by rw [firstMatch, if_pos hc]⟩
    · obtain ⟨c', hc', hcm⟩ := hm
      rcases List.mem_cons.mp hc' with rfl | hmem
      · exact absurd hcm (by simpa using hc)
      · obtain ⟨c'', h''⟩ := ih ⟨c', hmem, hcm⟩
        exact ⟨c'', by rw [firstMatch, if_neg hc]; exact h''⟩

/-- C8. If some candidate in the jobs channel derives to the target
(`check` returns true on it), then once the process run has finished — the
channel is drained or a match was observed — the process has reported
exactly the first matching candidate together with its derived address, and
the post-match state is absorbing: no worker takes another job or issues
another derivation call, under every further interleaving. -/
theorem match_reported_and_halts (check : List String → String × Bool)
    (jobs : List (List String)) (n : Nat)
    (hmatch : ∃ c ∈ jobs, (check c).2 = true)
    (hdone : (procRun check ⟨jobs, 0, none⟩ n).jobs = []
      ∨ (procRun check ⟨jobs, 0, none⟩ n).report.isSome = true) :
    ∃ address c,
      (procRun check ⟨jobs, 0, none⟩ n).report = some (address, c) ∧
      check c = (address, true) ∧
      firstMatch check jobs = some c ∧
      ∀ m, procRun check (procRun check ⟨jobs, 0, none⟩ n) m
        = procRun check ⟨jobs, 0, none⟩ n := by
  have hinv0 : procInv check jobs ⟨jobs, 0, none⟩ := by
    rw [procInv]
    simp only [procInvAux]
  have hinv := procRun_inv check jobs ⟨jobs, 0, none⟩ hinv0 n
  match hr : (procRun check ⟨jobs, 0, none⟩ n).report with
  | some (address, c) =>
    rw [procInv, hr] at hinv
    simp only [procInvAux] at hinv
    exact ⟨address, c, rfl, hinv.2, hinv.1,
      procRun_absorbing check _ (by rw [hr]; rfl)⟩
  | none =>
    rcases hdone with hempty | hsome
    · rw [procInv, hr] at hinv
      simp only [procInvAux] at hinv
      rw [hempty, firstMatch] at hinv
      obtain ⟨c, hc⟩ := firstMatch_isSome check jobs hmatch
      rw [hc] at hinv
      exact absurd hinv (by simp)
    · rw [hr] at hsome
      simp at hsome

/-- Witness for C8: jobs `[["y"], ["x"]]`, where only `["x"]` matches; after
two steps the process has reported `("T1", ["x"])` and is halted. -/
theorem match_reported_and_halts_witness :
    ∃ address c,
      (procRun (fun c => ("T1", c == ["x"])) ⟨[["y"], ["x"]], 0, none⟩ 2).report
        = some (address, c) ∧
      (fun c => (("T1" : String), c == (["x"] : List String))) c = (address, true) ∧
      firstMatch (fun c => ("T1", c == ["x"])) [["y"], ["x"]] = some c ∧
      ∀ m, procRun (fun c => ("T1", c == ["x"]))
          (procRun (fun c => ("T1", c == ["x"])) ⟨[["y"], ["x"]], 0, none⟩ 2) m
        = procRun (fun c => ("T1", c == ["x"])) ⟨[["y"], ["x"]], 0, none⟩ 2 :=
  match_reported_and_halts (fun c => ("T1", c == ["x"])) [["y"], ["x"]] 2
    ⟨["x"], by decide, by decide⟩ (Or.inr rfl)

/-! ## The two base-58 encoders of the near-duplicate variants -/

/-- The constant `ALPHABET` declared identically inside both encoders. -/
def ALPHABET : List Char :=
  ['1', '2', '3', '4', '5', '6', '7', '8', '9',
   'A', 'B', 'C', 'D', 'E', 'F', 'G', 'H', 'J', 'K', 'L', 'M', 'N', 'P', 'Q', 'R',
   'S', 'T', 'U', 'V', 'W', 'X', 'Y', 'Z',
   'a', 'b', 'c', 'd', 'e', 'f', 'g', 'h', 'i', 'j', 'k', 'm', 'n', 'o', 'p', 'q',
   'r', 's', 't', 'u', 'v', 'w', 'x', 'y', 'z']

/-- `new(big.Int).SetBytes(input)`: the big-endian integer of a byte string. -/
def setBytes (input : List Nat) : Nat :=
  input.foldl (fun acc b => acc * 256 + b) 0

/-- The div-mod loop of variant 1's `Base58EncodeAddr`, least-significant
digit first: `x.DivMod(x, base, mod); result = append(result, ALPHABET[mod])`
while `x > 0`. -/
def base58DigitsAddr (x : Nat) : List Char :=
  if h : x = 0 then []
  else ALPHABET.getD (x % 58) ' ' :: base58DigitsAddr (x / 58)
decreasing_by exact Nat.div_lt_self (Nat.pos_of_ne_zero h) (by norm_num)

/-- The identically written div-mod loop of variant 2's `Base58Encode`. -/
def base58DigitsEnc (x : Nat) : List Char :=
  if h : x = 0 then []
  else ALPHABET.getD (x % 58) ' ' :: base58DigitsEnc (x / 58)
decreasing_by exact Nat.div_lt_self (Nat.pos_of_ne_zero h) (by norm_num)

/-- `Base58EncodeAddr` from variant 1: the digits of the big-endian integer
(least significant first), then one `ALPHABET[0] = '1'` per leading zero
byte of the input, then reverse the whole buffer. -/
def Base58EncodeAddr (input : List Nat) : String :=
  ((base58DigitsAddr (setBytes input)
    ++ (input.takeWhile (fun b => b == 0)).map (fun _ => ALPHABET.getD 0 ' ')).reverse).asString

/-- `Base58Encode` from variant 2; the same algorithm line for line (the two
sources differ only in where `var result []byte` is declared). -/
def Base58Encode (input : List Nat) : String :=
  ((base58DigitsEnc (setBytes input)
    ++ (input.takeWhile (fun b => b == 0)).map (fun _ => ALPHABET.getD 0 ' ')).reverse).asString

theorem base58Digits_eq (x : Nat) : base58DigitsAddr x = base58DigitsEnc x := by
  induction x using Nat.strong_induction_on with
  | _ x ih =>
    unfold base58DigitsAddr base58DigitsEnc
    by_cases h : x = 0
    · simp [h]
    · simp only [dif_neg h]
      rw [ih _ (Nat.div_lt_self (Nat.pos_of_ne_zero h) (by norm_num))]

/-- C10. The two base-58 encoders of the near-duplicate program variants
are extensionally equal: for every byte-string input, `Base58EncodeAddr`
(variant 1) and `Base58Encode` (variant 2) return the same string. -/
theorem base58_encoders_agree (input : List Nat) :
    Base58EncodeAddr input = Base58Encode input := by
  rw [Base58EncodeAddr, Base58Encode, base58Digits_eq]

end WalletRestore
